import Mathlib

/-!
Shallow embedding of the runty8-steamdeck widget and event-dispatch core
(src/src/ui.rs), of the frame driver (src/src/runty8-runtime/src/lib.rs), and
of the map codec (src/src/runtime/map.rs), together with theorems checking the
natural-language specification against these definitions.
-/

namespace Runty8

/-- Modelled from the spec: the payload of a raw input event
(press/release/move with device-level payload); the concrete type lives in
runty8-core, which is not under src. -/
inductive InputEvent where
  | press (key : Nat)
  | release (key : Nat)
  | move (x y : Int)
deriving DecidableEq

/-- Modelled from the spec: the platform event stream consists of exactly tick
events, raw input events, and a window-closed signal; the concrete type lives
in runty8-core, which is not under src. The tick payload is ignored by all
code under src (it is matched as Tick with dots). -/
inductive Event where
  | tick (deltaMillis : Nat)
  | input (i : InputEvent)
  | windowClosed
deriving DecidableEq

section UI

variable {Ctx Msg : Type}

/-- ui.rs DispatchEvent::call: push one message onto the shared queue. -/
def DispatchEvent.call (queue : List Msg) (msg : Msg) : List Msg :=
  queue ++ [msg]

/-- Net effect on the shared queue of a widget body that invokes
DispatchEvent.call once per element of msgs, in that temporal order. -/
def runCalls (queue msgs : List Msg) : List Msg :=
  msgs.foldl DispatchEvent.call queue

/-- ui.rs Element: a boxed widget. A leaf holds an arbitrary widget: its
private state type, current state, its Widget::on_event transition (returning
the new state together with the messages it hands to DispatchEvent.call, in
call order; the queue itself is not readable through DispatchEvent), and its
Widget::draw function on the draw context. A tree node is the composite Tree
widget holding its ordered children (ui.rs Tree used as a Widget). -/
inductive Elem (Ctx Msg : Type) : Type 1 where
  | widget (σ : Type) (state : σ)
      (onEv : Event → Int × Int → σ → σ × List Msg)
      (drawFn : σ → Ctx → Ctx)
  | tree (children : List (Elem Ctx Msg))

mutual

/-- Widget::on_event dispatched through an Element: a leaf runs its own
handler (its DispatchEvent.call invocations append to the queue); the Tree
widget runs the ui.rs Tree::on_event loop over its children. -/
def Elem.onEvent : Elem Ctx Msg → Event → Int × Int → List Msg →
    Elem Ctx Msg × List Msg
  | .widget σ s f d, ev, pos, q =>
      let r := f ev pos s
      (.widget σ r.1 f d, runCalls q r.2)
  | .tree cs, ev, pos, q =>
      let r := elemsOnEvent cs ev pos q
      (.tree r.1, r.2)

/-- ui.rs Tree::on_event loop: visit each child in order, forwarding the same
event and cursor position and threading the shared dispatch queue. -/
def elemsOnEvent : List (Elem Ctx Msg) → Event → Int × Int → List Msg →
    List (Elem Ctx Msg) × List Msg
  | [], _, _, q => ([], q)
  | c :: cs, ev, pos, q =>
      let r := c.onEvent ev pos q
      let rs := elemsOnEvent cs ev pos r.2
      (r.1 :: rs.1, rs.2)

end

mutual

/-- Widget::draw dispatched through an Element. -/
def Elem.draw : Elem Ctx Msg → Ctx → Ctx
  | .widget _ s _ d, ctx => d s ctx
  | .tree cs, ctx => elemsDraw cs ctx

/-- ui.rs Tree::draw loop: draw each child in order on the shared context. -/
def elemsDraw : List (Elem Ctx Msg) → Ctx → Ctx
  | [], ctx => ctx
  | c :: cs, ctx => elemsDraw cs (c.draw ctx)

end

mutual

/-- The state of an element after one delivery of the event at the given
cursor position (one application of its own handler; no dependence on the
dispatch queue or on sibling elements). -/
def Elem.stepped : Elem Ctx Msg → Event → Int × Int → Elem Ctx Msg
  | .widget σ s f d, ev, pos => .widget σ (f ev pos s).1 f d
  | .tree cs, ev, pos => .tree (elemsStepped cs ev pos)

/-- Pointwise Elem.stepped over a list of elements. -/
def elemsStepped : List (Elem Ctx Msg) → Event → Int × Int → List (Elem Ctx Msg)
  | [], _, _ => []
  | c :: cs, ev, pos => c.stepped ev pos :: elemsStepped cs ev pos

end

mutual

/-- The messages an element passes to DispatchEvent.call during one delivery
of the event, in call order (for a tree, concatenated in child order). -/
def Elem.pushed : Elem Ctx Msg → Event → Int × Int → List Msg
  | .widget _ s f _, ev, pos => (f ev pos s).2
  | .tree cs, ev, pos => elemsPushed cs ev pos

/-- Concatenation of Elem.pushed over a list of elements, in order. -/
def elemsPushed : List (Elem Ctx Msg) → Event → Int × Int → List Msg
  | [], _, _ => []
  | c :: cs, ev, pos => c.pushed ev pos ++ elemsPushed cs ev pos

end

/-- ui.rs Tree: an ordered sequence of Elements. -/
structure Tree (Ctx Msg : Type) : Type 1 where
  children : List (Elem Ctx Msg)

/-- Tree::new: with_children(vec![]). -/
def Tree.new : Tree Ctx Msg := ⟨[]⟩

/-- Tree::with_children. -/
def Tree.withChildren (cs : List (Elem Ctx Msg)) : Tree Ctx Msg := ⟨cs⟩

/-- Tree::push: append one element, return the tree (builder style). -/
def Tree.push (t : Tree Ctx Msg) (e : Elem Ctx Msg) : Tree Ctx Msg :=
  ⟨t.children ++ [e]⟩

/-- Element::from for a Tree: box the tree itself as a widget. -/
def Tree.toElement (t : Tree Ctx Msg) : Elem Ctx Msg := .tree t.children

/-- ui.rs From Vec Element for Element: Tree::with_children(children).into(). -/
def elementFromVec (cs : List (Elem Ctx Msg)) : Elem Ctx Msg :=
  (Tree.withChildren cs).toElement

/-- Widget::on_event of a Tree (the ui.rs impl Widget for Tree loop). -/
def Tree.onEvent (t : Tree Ctx Msg) (ev : Event) (pos : Int × Int)
    (q : List Msg) : Tree Ctx Msg × List Msg :=
  let r := elemsOnEvent t.children ev pos q
  (⟨r.1⟩, r.2)

/-- Widget::draw of a Tree (the ui.rs impl Widget for Tree loop). -/
def Tree.draw (t : Tree Ctx Msg) (ctx : Ctx) : Ctx :=
  elemsDraw t.children ctx

/-- ui.rs DrawFn: wraps a drawing closure; on_event has an empty body, draw
invokes the wrapped procedure on the current draw context. -/
def DrawFn (f : Ctx → Ctx) : Elem Ctx Msg :=
  .widget Unit () (fun _ _ s => (s, [])) (fun _ ctx => f ctx)

/-- A recording test widget: ignores events, logs its label on draw. -/
def recordW (i : Nat) : Elem (List Nat) Msg :=
  .widget Unit () (fun _ _ s => (s, [])) (fun _ log => log ++ [i])

/-- A counting test widget: increments its private counter on every
delivered event, pushes nothing, draws nothing. -/
def counterW (n : Nat) : Elem Ctx Msg :=
  .widget Nat n (fun _ _ s => (s + 1, [])) (fun _ ctx => ctx)

theorem runCalls_eq_append (q ms : List Msg) : runCalls q ms = q ++ ms := by
  induction ms generalizing q with
  | nil => simp [runCalls]
  | cons m ms ih =>
      show runCalls (DispatchEvent.call q m) ms = _
      rw [ih]
      simp [DispatchEvent.call]

mutual

theorem Elem.onEvent_eq (e : Elem Ctx Msg) (ev : Event) (pos : Int × Int)
    (q : List Msg) :
    e.onEvent ev pos q = (e.stepped ev pos, q ++ e.pushed ev pos) := by
  cases e with
  | widget σ s f d =>
      simp [Elem.onEvent, Elem.stepped, Elem.pushed, runCalls_eq_append]
  | tree cs =>
      simp [Elem.onEvent, Elem.stepped, Elem.pushed, elemsOnEvent_eq cs ev pos q]

theorem elemsOnEvent_eq (cs : List (Elem Ctx Msg)) (ev : Event)
    (pos : Int × Int) (q : List Msg) :
    elemsOnEvent cs ev pos q
      = (elemsStepped cs ev pos, q ++ elemsPushed cs ev pos) := by
  cases cs with
  | nil => simp [elemsOnEvent, elemsStepped, elemsPushed]
  | cons c cs =>
      simp [elemsOnEvent, elemsStepped, elemsPushed, Elem.onEvent_eq c ev pos q,
        elemsOnEvent_eq cs ev pos, List.append_assoc]

end

theorem elemsStepped_eq_map (cs : List (Elem Ctx Msg)) (ev : Event)
    (pos : Int × Int) :
    elemsStepped cs ev pos = cs.map (fun c => c.stepped ev pos) := by
  induction cs with
  | nil => rfl
  | cons c cs ih => simp [elemsStepped, ih]

theorem elemsPushed_eq_join (cs : List (Elem Ctx Msg)) (ev : Event)
    (pos : Int × Int) :
    elemsPushed cs ev pos = (cs.map (fun c => c.pushed ev pos)).flatten := by
  induction cs with
  | nil => rfl
  | cons c cs ih => simp [elemsPushed, ih]

theorem elemsDraw_append (cs ds : List (Elem Ctx Msg)) (ctx : Ctx) :
    elemsDraw (cs ++ ds) ctx = elemsDraw ds (elemsDraw cs ctx) := by
  induction cs generalizing ctx with
  | nil => rfl
  | cons c cs ih => simp [elemsDraw, ih]

theorem recordW_draw {Msg : Type} (i : Nat) (log : List Nat) :
    (recordW i : Elem (List Nat) Msg).draw log = log ++ [i] := by
  simp [recordW, Elem.draw]

theorem elemsDraw_record {Msg : Type} (ids : List Nat) (log : List Nat) :
    elemsDraw (ids.map fun i => (recordW i : Elem (List Nat) Msg)) log
      = log ++ ids := by
  induction ids generalizing log with
  | nil => simp [elemsDraw]
  | cons i ids ih =>
      simp only [List.map_cons, elemsDraw, recordW_draw, ih]
      simp

theorem foldl_push_eq (cs : List (Elem Ctx Msg)) (t : Tree Ctx Msg) :
    List.foldl Tree.push t cs = ⟨t.children ++ cs⟩ := by
  induction cs generalizing t with
  | nil => simp
  | cons c cs ih => simp [Tree.push, ih]

/-- C1: for every Tree and every event with any cursor position, Tree::on_event
delivers the event with that cursor position to every child exactly once, in
the order the children were added, with no early termination: the resulting
children are the pointwise one-delivery updates of the old children (each
computed from that child alone, independent of the dispatch queue and of what
earlier children pushed); in particular per-call counter widgets each count
exactly one call. -/
theorem tree_onEvent_every_child_once (t : Tree Ctx Msg) (ev : Event)
    (pos : Int × Int) (q : List Msg) :
    ((t.onEvent ev pos q).1).children = t.children.map (fun c => c.stepped ev pos)
    ∧ ∀ ns : List Nat,
        ((Tree.withChildren (ns.map fun n => (counterW n : Elem Ctx Msg))).onEvent
            ev pos q).1.children
          = (ns.map fun n => n + 1).map (fun n => counterW n) := by
  constructor
  · simp [Tree.onEvent, elemsOnEvent_eq, elemsStepped_eq_map]
  · intro ns
    simp [Tree.onEvent, Tree.withChildren, elemsOnEvent_eq, elemsStepped_eq_map]
    induction ns with
    | nil => simp
    | cons n ns ih => simp [counterW, Elem.stepped, ih]

/-- C2: for every Tree built from widgets W1..Wn, Tree::draw draws every child
exactly once, in insertion order: drawing a tree whose children are cs ++ ds
first draws the cs then the ds over the result (so later children paint over
earlier ones), and a tree of recording widgets logs exactly the labels in
insertion order. -/
theorem tree_draw_in_order (cs ds : List (Elem Ctx Msg)) (ctx : Ctx) :
    (Tree.withChildren (cs ++ ds)).draw ctx
      = (Tree.withChildren ds).draw ((Tree.withChildren cs).draw ctx)
    ∧ ∀ (ids log : List Nat),
        (Tree.withChildren (ids.map fun i => (recordW i : Elem (List Nat) Msg))).draw
            log
          = log ++ ids := by
  refine ⟨?_, ?_⟩
  · simp [Tree.draw, Tree.withChildren, elemsDraw_append]
  · intro ids log
    simp [Tree.draw, Tree.withChildren, elemsDraw_record]

/-- C3: during one event-handling call, the queue wrapped by the DispatchEvent
ends up holding exactly the messages handed to dispatch.call, appended in call
order: DispatchEvent.call only appends (running a sequence of calls on a queue
appends exactly that sequence), and a whole Tree::on_event pass turns queue q
into q followed by each visited child's pushed messages, concatenated in visit
order, with nothing dropped, duplicated or reordered. -/
theorem dispatch_messages_in_call_order (cs : List (Elem Ctx Msg)) (ev : Event)
    (pos : Int × Int) (q : List Msg) :
    ((Tree.withChildren cs).onEvent ev pos q).2
      = q ++ (cs.map (fun c => c.pushed ev pos)).flatten
    ∧ ∀ q2 ms : List Msg, runCalls q2 ms = q2 ++ ms := by
  refine ⟨?_, fun q2 ms => runCalls_eq_append q2 ms⟩
  simp [Tree.onEvent, Tree.withChildren, elemsOnEvent_eq, elemsPushed_eq_join]

/-- C6: converting a plain ordered list of Elements into an Element (the
From Vec Element promotion) yields exactly the Element obtained by starting
from the empty Tree, pushing the same Elements one by one in the same order,
and boxing the result; hence its on_event and draw behavior coincide with
that Tree. -/
theorem elementFromVec_eq_pushed (cs : List (Elem Ctx Msg)) :
    elementFromVec cs = Tree.toElement (List.foldl Tree.push Tree.new cs)
    ∧ (∀ (ev : Event) (pos : Int × Int) (q : List Msg),
        (elementFromVec cs).onEvent ev pos q
          = (Tree.toElement (List.foldl Tree.push Tree.new cs)).onEvent ev pos q)
    ∧ ∀ ctx : Ctx,
        (elementFromVec cs).draw ctx
          = (Tree.toElement (List.foldl Tree.push Tree.new cs)).draw ctx := by
  have h : elementFromVec cs
      = Tree.toElement (List.foldl Tree.push Tree.new cs) := by
    simp [elementFromVec, Tree.toElement, Tree.withChildren, foldl_push_eq, Tree.new]
  exact ⟨h, fun ev pos q => by rw [h], fun ctx => by rw [h]⟩

/-- C8: for every event and every cursor position, a DrawFn widget's on_event
appends nothing to the dispatch queue and leaves both its own state and the
queue unchanged: it is a no-op. -/
theorem drawFn_onEvent_noop (f : Ctx → Ctx) (ev : Event) (pos : Int × Int)
    (q : List Msg) :
    (DrawFn f : Elem Ctx Msg).onEvent ev pos q = (DrawFn f, q) := by
  simp [DrawFn, Elem.onEvent, runCalls]

end UI

section FrameDriver

/-- winit ControlFlow, as used by the frame driver: the loop either waits
until an absolute deadline (modelled in nanoseconds), waits, polls, or exits.
Only waitUntil and exit are ever written by code under src. -/
inductive ControlFlow where
  | poll
  | wait
  | waitUntil (deadlineNs : Nat)
  | exit
deriving DecidableEq

/-- lib.rs set_next_timer: fps = 30, nanoseconds_per_frame = 10^9 / fps
(integer division on u64). -/
def nanosecondsPerFrame : Nat := 1000000000 / 30

/-- lib.rs set_next_timer: arm the loop to wake at now + nanoseconds_per_frame,
where now is the Instant sampled at the moment set_next_timer runs (inside the
presentation closure, i.e. after the tick's update and draw passes finished). -/
def setNextTimer (nowNs : Nat) : ControlFlow :=
  .waitUntil (nowNs + nanosecondsPerFrame)

/-- The deadline carried by a ControlFlow, if any. -/
def ControlFlow.deadline : ControlFlow → Option Nat
  | .waitUntil d => some d
  | _ => none

/-- The deadline armed while handling a tick that fired at tickAtNs when the
presentation closure runs processingNs later (the duration of the update and
draw passes of that tick): set_next_timer samples now = tickAtNs + processingNs. -/
def armedDeadline (tickAtNs processingNs : Nat) : Option Nat :=
  (setNextTimer (tickAtNs + processingNs)).deadline

variable {Game Pico8 Input Buffer : Type}

/-- Modelled from the spec: the collaborators of run_internal live in
runty8-core, which is not under src. The application supplies update and draw
routines mutating the game and the pico8 state; the pico8 state can merge the
input accumulator into its input model (Pico8 state update_input) and expose
the finished pixel buffer (pico8 draw_data buffer); the input accumulator
records each raw input event (Input on_event). All are opaque functions here. -/
structure AppModel (Game Pico8 Input Buffer : Type) where
  updateInput : Pico8 → Input → Pico8
  update : Game → Pico8 → Game × Pico8
  draw : Game → Pico8 → Game × Pico8
  inputOnEvent : Input → InputEvent → Input
  buffer : Pico8 → Buffer

/-- The mutable state captured by the run_internal closure: the pico8
instance, the game, and the input accumulator. -/
structure DriverState (Game Pico8 Input : Type) where
  pico8 : Pico8
  game : Game
  input : Input

/-- Observable calls the frame driver makes while handling one event, in
order: merging the accumulated input into the pico8 input model (recording
the merged pico8 state), invoking the application's update routine (recording
the game and pico8 state it is given), invoking the application's draw
routine (recording the game and pico8 state it is given), and handing a pixel
buffer to the presentation backend. -/
inductive DriverAction (Game Pico8 Buffer : Type) where
  | mergedInput (p : Pico8)
  | updateCalled (g : Game) (p : Pico8)
  | drawCalled (g : Game) (p : Pico8)
  | presented (b : Buffer)

/-- lib.rs run_internal, body of the on_event closure, handling one event.
nowNs is the instant at which the presentation closure (set_next_timer plus
do_draw) runs during a tick. Returns the new captured state, the control flow
written, and the observable calls in order. On Tick: update_input, then
game.update, then game.draw, then the presentation closure on the pico8
buffer (which arms the next timer). On Input: input.on_event only. On
WindowClosed: control flow Exit. -/
def runInternalOnEvent (M : AppModel Game Pico8 Input Buffer) (nowNs : Nat)
    (s : DriverState Game Pico8 Input) (cf : ControlFlow) (ev : Event) :
    DriverState Game Pico8 Input × ControlFlow ×
      List (DriverAction Game Pico8 Buffer) :=
  match ev with
  | .tick _ =>
      let p1 := M.updateInput s.pico8 s.input
      let r2 := M.update s.game p1
      let r3 := M.draw r2.1 r2.2
      (⟨r3.2, r3.1, s.input⟩, setNextTimer nowNs,
        [.mergedInput p1, .updateCalled s.game p1, .drawCalled r2.1 r2.2,
          .presented (M.buffer r3.2)])
  | .input ie =>
      (⟨s.pico8, s.game, M.inputOnEvent s.input ie⟩, cf, [])
  | .windowClosed => (s, .exit, [])

/-- Sequential handling of a list of events by the frame driver, threading
state and control flow and concatenating the observable calls. -/
def runEvents (M : AppModel Game Pico8 Input Buffer) (nowNs : Nat) :
    DriverState Game Pico8 Input → ControlFlow → List Event →
      DriverState Game Pico8 Input × ControlFlow ×
        List (DriverAction Game Pico8 Buffer)
  | s, cf, [] => (s, cf, [])
  | s, cf, ev :: evs =>
      let r := runInternalOnEvent M nowNs s cf ev
      let rest := runEvents M nowNs r.1 r.2.1 evs
      (rest.1, rest.2.1, r.2.2 ++ rest.2.2)

/-- C4: on every tick event the frame driver performs, in this order within
the same tick: merge the accumulated input into the pico8 input model, call
the application's update routine on the merged state, call the application's
draw routine on exactly the game and pico8 state update produced (so draw
observes the state exactly as update left it — the two never interleave), and
hand the pico8 pixel buffer (as draw left it) to the presentation backend. -/
theorem tick_merges_updates_draws_presents (M : AppModel Game Pico8 Input Buffer)
    (nowNs : Nat) (s : DriverState Game Pico8 Input) (cf : ControlFlow)
    (dt : Nat) :
    (runInternalOnEvent M nowNs s cf (Event.tick dt)).2.2
      = [DriverAction.mergedInput (M.updateInput s.pico8 s.input),
         DriverAction.updateCalled s.game (M.updateInput s.pico8 s.input),
         DriverAction.drawCalled (M.update s.game (M.updateInput s.pico8 s.input)).1
           (M.update s.game (M.updateInput s.pico8 s.input)).2,
         DriverAction.presented (M.buffer
           (M.draw (M.update s.game (M.updateInput s.pico8 s.input)).1
             (M.update s.game (M.updateInput s.pico8 s.input)).2).2)] := by
  rfl

/-- C5 counterexample: the claim that consecutive armed tick deadlines are
spaced by exactly 1/30 second, independent of the duration of the tick's
update and draw passes, is false on the code. With a first tick at instant 0
and zero processing time the armed deadline is 33333333 ns; a second tick at
that deadline arms, with zero processing, 66666666 ns and, with 1 ms of
update/draw processing, 67666666 ns: the spacing (33333333 ns resp.
34333333 ns) is never exactly 1/30 of a second (10^9/30 ns is not an
integer), and it changes with the processing duration. -/
theorem timer_cadence_counterexample :
    armedDeadline 0 0 = some 33333333
    ∧ armedDeadline 33333333 0 = some 66666666
    ∧ armedDeadline 33333333 1000000 = some 67666666
    ∧ ((66666666 - 33333333 : ℚ) ≠ 1000000000 / 30)
    ∧ ((67666666 - 33333333 : ℚ) ≠ 1000000000 / 30)
    ∧ (67666666 - 33333333 ≠ 66666666 - 33333333 : Prop) := by
  refine ⟨rfl, rfl, rfl, by norm_num, by norm_num, by norm_num⟩

/-- C5 amended: the deadline armed during a tick equals the instant at which
set_next_timer runs (the tick instant plus the duration of that tick's update
and draw passes) plus the constant 10^9/30 rounded down, i.e. 33333333
nanoseconds; hence consecutive deadlines are spaced by that constant plus the
later tick's processing time, and only with zero processing time is the
spacing the constant 33333333 ns (slightly less than 1/30 second). -/
theorem timer_cadence_amended (tickAtNs processingNs : Nat) :
    armedDeadline tickAtNs processingNs
      = some (tickAtNs + processingNs + nanosecondsPerFrame)
    ∧ nanosecondsPerFrame = 33333333
    ∧ (armedDeadline (tickAtNs + processingNs + nanosecondsPerFrame) 0).map
        (fun d => d - (tickAtNs + processingNs + nanosecondsPerFrame))
      = some nanosecondsPerFrame := by
  refine ⟨rfl, rfl, ?_⟩
  simp [armedDeadline, setNextTimer, ControlFlow.deadline]

/-- C7: a raw input event is only recorded into the input accumulator: the
pico8 and game state and the control flow are unchanged and no observable
call (no update, draw or presentation) happens; and in the scenario input I1,
then input I2, then a tick, the single update pass observes the pico8 state
with both I1 and I2 merged into the accumulator in order, with no update pass
between I1 and I2. -/
theorem input_only_buffered (M : AppModel Game Pico8 Input Buffer)
    (nowNs : Nat) (s : DriverState Game Pico8 Input) (cf : ControlFlow)
    (i1 i2 : InputEvent) (dt : Nat) :
    runInternalOnEvent M nowNs s cf (Event.input i1)
      = (⟨s.pico8, s.game, M.inputOnEvent s.input i1⟩, cf, [])
    ∧ (runEvents M nowNs s cf [Event.input i1, Event.input i2, Event.tick dt]).2.2
      = [DriverAction.mergedInput (M.updateInput s.pico8
           (M.inputOnEvent (M.inputOnEvent s.input i1) i2)),
         DriverAction.updateCalled s.game (M.updateInput s.pico8
           (M.inputOnEvent (M.inputOnEvent s.input i1) i2)),
         DriverAction.drawCalled
           (M.update s.game (M.updateInput s.pico8
             (M.inputOnEvent (M.inputOnEvent s.input i1) i2))).1
           (M.update s.game (M.updateInput s.pico8
             (M.inputOnEvent (M.inputOnEvent s.input i1) i2))).2,
         DriverAction.presented (M.buffer
           (M.draw
             (M.update s.game (M.updateInput s.pico8
               (M.inputOnEvent (M.inputOnEvent s.input i1) i2))).1
             (M.update s.game (M.updateInput s.pico8
               (M.inputOnEvent (M.inputOnEvent s.input i1) i2))).2).2)] := by
  exact ⟨rfl, rfl⟩

end FrameDriver

section MapCodec

/-- Modelled from the spec: Sprite lives in sprite_sheet.rs, which is not
under src; the spec fixes the console screen at 128 pixels and treats the
sprite sheet as the asset of a Pico-8-style console, whose sprite cells are
8 pixels wide. Only the derived grid dimensions depend on this value; the
codec and mget theorems hold for the derived constants symbolically. -/
def Sprite.WIDTH : Nat := 8

/-- map.rs Map constants. -/
def Map.SCREEN_SIZE_PIXELS : Nat := 128

/-- map.rs: the map is 8 screens wide. -/
def Map.SCREENS_WIDTH : Nat := 8

/-- map.rs: the map is 4 screens tall. -/
def Map.SCREENS_HEIGHT : Nat := 4

/-- map.rs SPRITES_PER_SCREEN_ROW = SCREEN_SIZE_PIXELS / Sprite::WIDTH. -/
def Map.SPRITES_PER_SCREEN_ROW : Nat := Map.SCREEN_SIZE_PIXELS / Sprite.WIDTH

/-- map.rs WIDTH_SPRITES = SCREENS_WIDTH * SPRITES_PER_SCREEN_ROW. -/
def Map.WIDTH_SPRITES : Nat := Map.SCREENS_WIDTH * Map.SPRITES_PER_SCREEN_ROW

/-- map.rs HEIGHT_SPRITES = SCREENS_HEIGHT * SPRITES_PER_SCREEN_ROW. -/
def Map.HEIGHT_SPRITES : Nat := Map.SCREENS_HEIGHT * Map.SPRITES_PER_SCREEN_ROW

/-- map.rs MAP_SIZE = WIDTH_SPRITES * HEIGHT_SPRITES. -/
def Map.MAP_SIZE : Nat := Map.WIDTH_SPRITES * Map.HEIGHT_SPRITES

/-- map.rs Map: a fixed-size array of MAP_SIZE sprite ids (u8, so below 256). -/
structure Map where
  map : List Nat
  hlen : map.length = Map.MAP_SIZE
  hbytes : ∀ x ∈ map, x < 256

theorem Map.MAP_SIZE_eq : Map.MAP_SIZE = 8192 := rfl

/-- map.rs Map::new: all zero except the first three cells, which hold 1. -/
def Map.new : Map where
  map := 1 :: 1 :: 1 :: List.replicate (Map.MAP_SIZE - 3) 0
  hlen := by
    rw [Map.MAP_SIZE_eq]
    simp only [List.length_cons, List.length_replicate]
  hbytes := by
    intro x hx
    simp only [List.mem_cons, List.mem_replicate] at hx
    rcases hx with rfl | rfl | rfl | ⟨-, rfl⟩ <;> norm_num

/-- map.rs Map::mget: index = cel_x + cel_y * WIDTH_SPRITES; the assertion
index <= self.map.len() models the panic on failure as none; the array access
self.map[index] models its out-of-bounds panic as none. -/
def Map.mget (m : Map) (celX celY : Nat) : Option Nat :=
  let index := celX + celY * Map.WIDTH_SPRITES
  if index ≤ m.map.length then m.map[index]? else none

/-- One uppercase hexadecimal digit, as produced by formatting with 0>2X. -/
def hexDigitChar (d : Nat) : Char :=
  if d < 10 then Char.ofNat (48 + d) else Char.ofNat (55 + d)

/-- The two-character uppercase rendering of one cell: format 0>2X pads a
below-256 value to exactly the two digits n / 16 and n % 16. -/
def byteToHex (n : Nat) : List Char :=
  [hexDigitChar (n / 16), hexDigitChar (n % 16)]

/-- itertools chunks: split a list into consecutive chunks of n elements (the
last chunk possibly shorter); n = 0 or an empty list yields no chunks. -/
def chunks {α : Type} (n : Nat) (l : List α) : List (List α) :=
  if h : n = 0 ∨ l.length = 0 then [] else l.take n :: chunks n (l.drop n)
termination_by l.length
decreasing_by
  push_neg at h
  simp [List.length_drop]
  omega

/-- map.rs Map::serialize, character list: rows of WIDTH_SPRITES cells, each
cell two uppercase hex digits, cells joined by one space, rows joined by one
newline. -/
def serializeRow (row : List Nat) : List Char :=
  List.intercalate [' '] (row.map byteToHex)

/-- The character sequence of Map::serialize. -/
def Map.serializeChars (m : Map) : List Char :=
  List.intercalate ['\n'] ((chunks Map.WIDTH_SPRITES m.map).map serializeRow)

/-- map.rs Map::serialize. -/
def Map.serialize (m : Map) : String :=
  ⟨m.serializeChars⟩

/-- char::to_digit(16): decimal digits, then lowercase then uppercase hex
letters; anything else is not a digit. -/
def toDigit16 (c : Char) : Option Nat :=
  if 48 ≤ c.toNat ∧ c.toNat ≤ 57 then some (c.toNat - 48)
  else if 97 ≤ c.toNat ∧ c.toNat ≤ 102 then some (c.toNat - 87)
  else if 65 ≤ c.toNat ∧ c.toNat ≤ 70 then some (c.toNat - 55)
  else none

/-- itertools tuples over pairs followed by the recombination
high << 4 | low of map.rs deserialize; a trailing unpaired digit is dropped. -/
def pairBytes : List Nat → List Nat
  | h :: lo :: t => (h <<< 4 ||| lo) :: pairBytes t
  | _ => []

theorem toDigit16_lt {c : Char} {d : Nat} (h : toDigit16 c = some d) : d < 16 := by
  unfold toDigit16 at h
  split at h
  · simp at h; omega
  · split at h
    · simp at h; omega
    · split at h
      · simp at h; omega
      · simp at h

theorem hexPair_lt : ∀ h < 16, ∀ lo < 16, h <<< 4 ||| lo < 256 := by decide

theorem pairBytes_lt : ∀ l : List Nat, (∀ d ∈ l, d < 16) →
    ∀ x ∈ pairBytes l, x < 256
  | [], _, x, hx => by simp [pairBytes] at hx
  | [d], _, x, hx => by simp [pairBytes] at hx
  | h :: lo :: t, hd, x, hx => by
      simp only [pairBytes, List.mem_cons] at hx
      rcases hx with hx | hx
      · subst hx
        exact hexPair_lt h (hd h (by simp)) lo (hd lo (by simp))
      · exact pairBytes_lt t (fun d hdm => hd d (by simp [hdm])) x hx

/-- map.rs Map::deserialize: keep exactly the characters that are hex digits,
pair consecutive digits, recombine each pair as high << 4 | low, and require
exactly MAP_SIZE cells (try_into an array, else the error string). Iterating
the bytes of valid UTF-8 and converting each byte to a char gives the same
hex digits as iterating chars, since every hex digit is ASCII and the bytes
of a multi-byte character are all above 127. -/
def Map.deserialize (s : String) : Except String Map :=
  let bytes := pairBytes (s.data.filterMap toDigit16)
  if h : bytes.length = Map.MAP_SIZE then
    .ok ⟨bytes, h, pairBytes_lt _ (by
      intro d hd
      obtain ⟨c, -, hc⟩ := List.mem_filterMap.mp hd
      exact toDigit16_lt hc)⟩
  else
    .error ("Error deserializing map " ++ toString bytes.length)

theorem toDigit16_hexDigitChar : ∀ d < 16, toDigit16 (hexDigitChar d) = some d := by
  decide

theorem toDigit16_space : toDigit16 ' ' = none := by decide

theorem toDigit16_newline : toDigit16 '\n' = none := by decide

set_option maxRecDepth 4096 in
theorem hexPair_recomb : ∀ n < 256, (n / 16) <<< 4 ||| n % 16 = n := by decide

theorem filterMap_intercalate (f : Char → Option Nat) (sep : Char)
    (hsep : f sep = none) :
    ∀ ls : List (List Char),
      (List.intercalate [sep] ls).filterMap f
        = (ls.map (fun l => l.filterMap f)).flatten
  | [] => by simp [List.intercalate]
  | [a] => by simp [List.intercalate]
  | a :: b :: t => by
      have ih := filterMap_intercalate f sep hsep (b :: t)
      simp only [List.intercalate] at ih ⊢
      rw [List.intersperse_cons_cons]
      simp only [List.flatten_cons, List.filterMap_append, List.map_cons,
        List.filterMap_cons_none hsep, List.filterMap_nil, List.append_nil,
        List.nil_append] at ih ⊢
      rw [ih]

theorem filterMap_byteToHex (n : Nat) (hn : n < 256) :
    (byteToHex n).filterMap toDigit16 = [n / 16, n % 16] := by
  have h1 : toDigit16 (hexDigitChar (n / 16)) = some (n / 16) :=
    toDigit16_hexDigitChar _ (by omega)
  have h2 : toDigit16 (hexDigitChar (n % 16)) = some (n % 16) :=
    toDigit16_hexDigitChar _ (by omega)
  simp [byteToHex, h1, h2]

theorem filterMap_serializeRow (row : List Nat) (hrow : ∀ n ∈ row, n < 256) :
    (serializeRow row).filterMap toDigit16
      = (row.map fun n => [n / 16, n % 16]).flatten := by
  rw [serializeRow, filterMap_intercalate toDigit16 ' ' toDigit16_space]
  congr 1
  rw [List.map_map]
  exact List.map_congr_left fun n hn =>
    filterMap_byteToHex n (hrow n hn)

theorem chunks_flatten {α : Type} (n : Nat) (hn : n ≠ 0) (l : List α) :
    (chunks n l).flatten = l := by
  by_cases hl : l.length = 0
  · rw [chunks]
    simp_all [List.length_eq_zero]
  · rw [chunks]
    rw [dif_neg (by simp [hn, hl])]
    rw [List.flatten_cons, chunks_flatten n hn (l.drop n)]
    exact List.take_append_drop n l
termination_by l.length
decreasing_by
  simp [List.length_drop]
  omega

theorem mem_chunks {α : Type} {n : Nat} (hn : n ≠ 0) {l : List α}
    {c : List α} (hc : c ∈ chunks n l) : ∀ x ∈ c, x ∈ l := by
  intro x hx
  rw [← chunks_flatten n hn l]
  exact List.mem_flatten.mpr ⟨c, hc, hx⟩

theorem pairBytes_pairs : ∀ l : List Nat,
    pairBytes ((l.map fun n => [n / 16, n % 16]).flatten)
      = l.map fun n => (n / 16) <<< 4 ||| n % 16
  | [] => rfl
  | n :: t => by
      show ((n / 16) <<< 4 ||| n % 16)
          :: pairBytes ((t.map fun n => [n / 16, n % 16]).flatten)
        = ((n / 16) <<< 4 ||| n % 16) :: t.map fun n => (n / 16) <<< 4 ||| n % 16
      rw [pairBytes_pairs t]

theorem filterMap_serializeChars (m : Map) :
    (Map.serializeChars m).filterMap toDigit16
      = (m.map.map fun n => [n / 16, n % 16]).flatten := by
  rw [Map.serializeChars, filterMap_intercalate toDigit16 '\n' toDigit16_newline]
  have hW : Map.WIDTH_SPRITES ≠ 0 := by decide
  have hrows : ((chunks Map.WIDTH_SPRITES m.map).map serializeRow).map
        (fun l => l.filterMap toDigit16)
      = (chunks Map.WIDTH_SPRITES m.map).map
        (fun row => (row.map fun n => [n / 16, n % 16]).flatten) := by
    rw [List.map_map]
    exact List.map_congr_left fun row hrow =>
      filterMap_serializeRow row fun n hn =>
        m.hbytes n (mem_chunks hW hrow n hn)
  rw [hrows]
  calc ((chunks Map.WIDTH_SPRITES m.map).map
          (fun row => (row.map fun n => [n / 16, n % 16]).flatten)).flatten
      = ((chunks Map.WIDTH_SPRITES m.map).map
          (List.map fun n => [n / 16, n % 16])).flatten.flatten := by
        rw [List.flatten_flatten, List.map_map]; rfl
    _ = (m.map.map fun n => [n / 16, n % 16]).flatten := by
        rw [← List.map_flatten, chunks_flatten _ hW]

/-- C9: Map::deserialize of Map::serialize succeeds and returns a Map whose
cell array equals the original: serialize writes each cell as a two-digit
uppercase hex pair, cells separated by spaces and rows by newlines;
deserialize keeps exactly the hex digits, pairs them, and recombines high and
low nibbles, so serialize followed by deserialize is a round trip. -/
theorem map_serialize_roundtrip (m : Map) :
    Map.deserialize (Map.serialize m) = Except.ok m := by
  have hbytes : pairBytes ((Map.serialize m).data.filterMap toDigit16) = m.map := by
    have hdata : (Map.serialize m).data = Map.serializeChars m := rfl
    rw [hdata, filterMap_serializeChars, pairBytes_pairs]
    calc m.map.map (fun n => (n / 16) <<< 4 ||| n % 16)
        = m.map.map (fun n => n) :=
          List.map_congr_left fun n hn => hexPair_recomb n (m.hbytes n hn)
      _ = m.map := List.map_id m.map
  rw [Map.deserialize]
  simp only [hbytes]
  rw [dif_pos m.hlen]

/-- C10: Map::mget(cel_x, cel_y) completes without panicking exactly when
cel_x + cel_y * WIDTH_SPRITES < MAP_SIZE, and then returns the sprite id
stored at that linear index; the internal assertion accepts index equal to
the map length, yet for that index the subsequent array access still fails,
so the panic-free domain is strictly index < MAP_SIZE. -/
theorem mget_panic_free_domain (m : Map) (celX celY : Nat) :
    ((m.mget celX celY).isSome ↔
        celX + celY * Map.WIDTH_SPRITES < Map.MAP_SIZE)
    ∧ m.mget celX celY = m.map[celX + celY * Map.WIDTH_SPRITES]?
    ∧ (celX + celY * Map.WIDTH_SPRITES = Map.MAP_SIZE →
        celX + celY * Map.WIDTH_SPRITES ≤ m.map.length
          ∧ m.mget celX celY = none) := by
  have hlen := m.hlen
  set index := celX + celY * Map.WIDTH_SPRITES with hidx
  have hmain : m.mget celX celY = m.map[index]? := by
    show (if index ≤ m.map.length then m.map[index]? else none) = m.map[index]?
    by_cases h : index ≤ m.map.length
    · rw [if_pos h]
    · rw [if_neg h, eq_comm, List.getElem?_eq_none (by omega)]
  refine ⟨?_, hmain, ?_⟩
  · rw [hmain]
    by_cases h : index < Map.MAP_SIZE
    · rw [List.getElem?_eq_getElem (by omega)]
      simp [h]
    · rw [List.getElem?_eq_none (by omega)]
      simp [h]
  · intro h
    refine ⟨by omega, ?_⟩
    rw [hmain, List.getElem?_eq_none (by omega)]

/-- C10 witness: at the concrete input cel_x = MAP_SIZE, cel_y = 0 on the
default map the linear index equals MAP_SIZE, the assertion bound accepts it,
and mget still fails. -/
theorem mget_panic_free_domain_witness :
    Map.MAP_SIZE + 0 * Map.WIDTH_SPRITES ≤ Map.new.map.length
      ∧ Map.new.mget Map.MAP_SIZE 0 = none :=
  (mget_panic_free_domain Map.new Map.MAP_SIZE 0).2.2 (by decide)

end MapCodec

end Runty8
